import Mathlib

/-!
Shallow embedding of `src/calendars.rs` (transit_model calendar conversion):
the weekly-pattern expansion (`Calendar::get_valid_dates`), the exception
merge (`parse_calendar_dates`), the orchestration (`manage_calendars`) and
the serialization path (`write_calendar_dates` / `write_calendar`).

Dates are modelled as integers (days since an epoch chosen so that day 0 is
a Monday); `chrono`'s weekday of a date is then the date modulo 7.  File
contents are modelled as lists of already-read rows, each row an
`Except String _` to account for per-row deserialization failures; a file
that may be absent is an `Option` of such a list, and a file whose opening
may fail wraps the list in one more `Except String _`.
-/

namespace TransitModel

/-- The seven weekdays (`chrono::Weekday`). -/
inductive Weekday
  | Mon | Tue | Wed | Thu | Fri | Sat | Sun
deriving DecidableEq, Repr

/-- Numeric index of a weekday, Monday = 0 (`chrono`'s `num_days_from_monday`). -/
def Weekday.idx : Weekday → ℤ
  | .Mon => 0 | .Tue => 1 | .Wed => 2 | .Thu => 3 | .Fri => 4 | .Sat => 5 | .Sun => 6

/-- Weekday of a day index modulo 7 (0 ↦ Monday). -/
def natToWeekday : ℕ → Weekday
  | 0 => .Mon | 1 => .Tue | 2 => .Wed | 3 => .Thu | 4 => .Fri | 5 => .Sat | _ => .Sun

/-- Weekday of a date: the epoch (day 0) is a Monday, so `chrono`'s
`NaiveDate::weekday` is the date modulo 7. -/
def weekdayOf (d : ℤ) : Weekday := natToWeekday (d % 7).toNat

/-- `ExceptionType` from `objects.rs`: a date is added to or removed from a service. -/
inductive ExceptionType
  | Add | Remove
deriving DecidableEq, Repr

/-- One row of `calendar_dates.txt` (struct `CalendarDate` in `calendars.rs`). -/
structure CalendarDate where
  service_id : String
  date : ℤ
  exception_type : ExceptionType
deriving DecidableEq, Repr

/-- One row of `calendar.txt` (struct `Calendar` in `calendars.rs`):
seven weekday flags plus an inclusive validity range. -/
structure Calendar where
  id : String
  monday : Bool
  tuesday : Bool
  wednesday : Bool
  thursday : Bool
  friday : Bool
  saturday : Bool
  sunday : Bool
  start_date : ℤ
  end_date : ℤ
deriving DecidableEq, Repr

/-- `Calendar::get_valid_days`: the list of weekdays whose flag is set,
built by pushing in the fixed order Monday..Sunday. -/
def Calendar.get_valid_days (c : Calendar) : List Weekday :=
  (if c.monday then [Weekday.Mon] else []) ++
  (if c.tuesday then [Weekday.Tue] else []) ++
  (if c.wednesday then [Weekday.Wed] else []) ++
  (if c.thursday then [Weekday.Thu] else []) ++
  (if c.friday then [Weekday.Fri] else []) ++
  (if c.saturday then [Weekday.Sat] else []) ++
  (if c.sunday then [Weekday.Sun] else [])

/-- `Calendar::get_valid_dates`: iterate `0..=duration.num_days()` where
`duration = end_date - start_date` (an empty iterator when the duration is
negative), map each offset to `start_date + offset`, keep the dates whose
weekday is among the valid days, and collect them into a set. -/
def Calendar.get_valid_dates (c : Calendar) : Finset ℤ :=
  ((Finset.range (c.end_date - c.start_date + 1).toNat).image
      (fun i : ℕ => c.start_date + (i : ℤ))).filter
    (fun d => weekdayOf d ∈ c.get_valid_days)

/-- The weekday flag of `c` for weekday `w`, read directly off the record's
seven booleans. -/
def Calendar.flagOf (c : Calendar) : Weekday → Bool
  | .Mon => c.monday
  | .Tue => c.tuesday
  | .Wed => c.wednesday
  | .Thu => c.thursday
  | .Fri => c.friday
  | .Sat => c.saturday
  | .Sun => c.sunday

/-- `objects::Calendar`: a service identifier together with its canonical
set of operating dates. -/
structure ObjCalendar where
  id : String
  dates : Finset ℤ
deriving DecidableEq

/-- `CollectionWithId<objects::Calendar>` modelled as the underlying list of
objects in insertion order; identifiers are unique by construction because
`push` refuses duplicates. -/
abbrev Catalog := List ObjCalendar

/-- Whether the collection already holds an object with this identifier. -/
def containsId (col : Catalog) (id : String) : Bool :=
  col.any (fun c => c.id = id)

/-- `CollectionWithId::push`: append the object, failing if its identifier
is already present. -/
def push (col : Catalog) (c : ObjCalendar) : Except String Catalog :=
  if containsId col c.id then .error ("identifier " ++ c.id ++ " already exists")
  else .ok (col ++ [c])

/-- `CollectionWithId::get_mut` (lookup part): the first object with this
identifier, if any. -/
def getById (col : Catalog) (id : String) : Option ObjCalendar :=
  col.find? (fun c => c.id = id)

/-- The date set stored for a service identifier, if present. -/
def datesOf (col : Catalog) (id : String) : Option (Finset ℤ) :=
  (getById col id).map (fun c => c.dates)

/-- In-place mutation through `get_mut`: update the dates of the first object
with the given identifier. -/
def updateById (col : Catalog) (id : String) (f : Finset ℤ → Finset ℤ) : Catalog :=
  match col with
  | [] => []
  | c :: rest =>
    if c.id = id then { c with dates := f c.dates } :: rest
    else c :: updateById rest id f

/-- The date-set mutation a `CalendarDate` row performs on a found calendar:
`Add` inserts the date, `Remove` removes it. -/
def applyException (ds : Finset ℤ) (cd : CalendarDate) : Finset ℤ :=
  match cd.exception_type with
  | .Add => insert cd.date ds
  | .Remove => ds.erase cd.date

/-- One iteration of the loop in `parse_calendar_dates`: look the service up;
if found, mutate its date set according to the exception type; if not found,
an `Add` pushes a fresh one-date calendar (`unwrap`ping the push: `none`
models the panic), and a `Remove` does nothing. -/
def mergeExceptionStep (col : Catalog) (cd : CalendarDate) : Option Catalog :=
  match getById col cd.service_id with
  | some _ => some (updateById col cd.service_id (fun ds => applyException ds cd))
  | none =>
    match cd.exception_type with
    | .Add => (push col { id := cd.service_id, dates := {cd.date} }).toOption
    | .Remove => some col

/-- `parse_calendar_dates` over a list of raw rows: each row either fails to
deserialize (`.error`, which aborts the whole parse) or is merged by
`mergeExceptionStep`; the outer `none` models a panic of the `unwrap`. -/
def parse_calendar_dates : List (Except String CalendarDate) → Catalog →
    Option (Except String Catalog)
  | [], col => some (.ok col)
  | r :: rs, col =>
    match r with
    | .error e => some (.error e)
    | .ok cd =>
      match mergeExceptionStep col cd with
      | none => none
      | some col' => parse_calendar_dates rs col'

/-- `parse_calendar` over a list of raw rows (the file's deserialized
records), threading the accumulating `CollectionWithId`: a row failing to
deserialize aborts with its error; a record whose expansion is empty is
skipped; otherwise the materialized calendar is pushed (a duplicate
identifier aborting via `?`). -/
def parse_calendar_rows : List (Except String Calendar) → Catalog →
    Except String Catalog
  | [], col => .ok col
  | r :: rs, col =>
    match r with
    | .error e => .error e
    | .ok c =>
      let dates := c.get_valid_dates
      if dates = ∅ then parse_calendar_rows rs col
      else
        match push col { id := c.id, dates := dates } with
        | .error e => .error e
        | .ok col' => parse_calendar_rows rs col'

/-- The `Collections` the conversion writes into: only the `calendars`
member is touched by `manage_calendars`. -/
structure Collections where
  calendars : Catalog
deriving DecidableEq

/-- Step 2 of `manage_calendars`: open and parse `calendar.txt` when it is
present (`.error` for an open failure, raw rows otherwise), or start from
the empty collection when it is absent. -/
def openCalendarStep
    (calendarFile : Option (Except String (List (Except String Calendar)))) :
    Except String Catalog :=
  match calendarFile with
  | some (.error e) => .error e
  | some (.ok rows) => parse_calendar_rows rows []
  | none => .ok []

/-- `manage_calendars`.  A source file is `none` when absent; present files
carry either an open failure (`.error`) or the list of raw rows.  The result
is `none` for the (unreachable) `unwrap` panic, otherwise the `Result` of
the Rust function paired with the final state of `collections`: on any
`bail!`/`?` error the input `collections` is returned untouched, and only
on full success is the finished catalog installed into
`collections.calendars`. -/
def manage_calendars
    (calendarFile : Option (Except String (List (Except String Calendar))))
    (calendarDatesFile : Option (Except String (List (Except String CalendarDate))))
    (collections : Collections) :
    Option (Except String Unit × Collections) :=
  match calendarFile, calendarDatesFile with
  | none, none =>
    some (.error "calendar_dates.txt or calendar.txt not found", collections)
  | _, _ =>
    match openCalendarStep calendarFile with
    | .error e => some (.error e, collections)
    | .ok cals =>
      match calendarDatesFile with
      | none => some (.ok (), { collections with calendars := cals })
      | some (.error e) => some (.error e, collections)
      | some (.ok rows) =>
        match parse_calendar_dates rows cals with
        | none => none
        | some (.error e) => some (.error e, collections)
        | some (.ok cals') => some (.ok (), { collections with calendars := cals' })

/-- `objects::ValidityPeriod`: the inclusive validity range returned by the
translator. -/
structure ValidityPeriod where
  start_date : ℤ
  end_date : ℤ
deriving DecidableEq, Repr

/-- One residual exception in the translator's output. -/
structure ExceptionDate where
  date : ℤ
  exception_type : ExceptionType
deriving DecidableEq, Repr

/-- The output shape of `vptranslator::translate` (the external Compressor):
a possibly-empty weekly pattern, an optional validity period, and the
ordered residual exceptions. -/
structure Translation where
  operating_days : List Weekday
  validity_period : Option ValidityPeriod
  exceptions : List ExceptionDate
deriving DecidableEq, Repr

/-- The weekly-pattern row `write_calendar_dates` pushes for a service:
each weekday flag is `operating_days.contains` of that weekday, and the
validity bounds come from the translator's validity period. -/
def translationRow (id : String) (t : Translation) (vp : ValidityPeriod) :
    Calendar where
  id := id
  monday := t.operating_days.contains Weekday.Mon
  tuesday := t.operating_days.contains Weekday.Tue
  wednesday := t.operating_days.contains Weekday.Wed
  thursday := t.operating_days.contains Weekday.Thu
  friday := t.operating_days.contains Weekday.Fri
  saturday := t.operating_days.contains Weekday.Sat
  sunday := t.operating_days.contains Weekday.Sun
  start_date := vp.start_date
  end_date := vp.end_date

/-- Loop body of `write_calendar_dates` for one calendar, accumulating the
weekly rows and the exception rows.  It mirrors the Rust control flow
exactly: when `operating_days` is non-empty but `validity_period` is `None`,
`skip_error_and_log!` logs a warning and expands to `continue`, abandoning
the rest of the iteration — so the exception rows of that service are not
pushed either. -/
def process_calendar (tr : Finset ℤ → Translation)
    (acc : List Calendar × List CalendarDate) (c : ObjCalendar) :
    List Calendar × List CalendarDate :=
  let t := tr c.dates
  let exceptionRows := t.exceptions.map
    (fun e => { service_id := c.id, date := e.date,
                exception_type := e.exception_type : CalendarDate })
  if t.operating_days.isEmpty then (acc.1, acc.2 ++ exceptionRows)
  else
    match t.validity_period with
    | none => acc
    | some vp =>
      (acc.1 ++ [translationRow c.id t vp], acc.2 ++ exceptionRows)

/-- `write_calendar` up to file I/O: the content of `calendar.txt`, or
`none` when the function returns early because there are no rows and the
file is not created. -/
def write_calendar (translations : List Calendar) : Option (List Calendar) :=
  if translations.isEmpty then none else some translations

/-- `write_calendar_dates` up to file I/O, parameterized by the external
translator: the row lists are accumulated in catalog order, then
`calendar_dates.txt` is created only if at least one exception row exists,
and `write_calendar` is called on the weekly rows.  The pair is (content of
`calendar_dates.txt`, content of `calendar.txt`), `none` meaning the file
is not created. -/
def write_calendar_dates (tr : Finset ℤ → Translation) (calendars : Catalog) :
    Option (List CalendarDate) × Option (List Calendar) :=
  let acc := calendars.foldl (process_calendar tr) ([], [])
  ((if acc.2.isEmpty then none else some acc.2), write_calendar acc.1)

/-- The weekly row emitted for one service, written independently of the
accumulating loop: none when the pattern is empty or the validity period is
missing. -/
def calendarRowsOf (tr : Finset ℤ → Translation) (c : ObjCalendar) :
    List Calendar :=
  let t := tr c.dates
  if t.operating_days.isEmpty then []
  else
    match t.validity_period with
    | none => []
    | some vp => [translationRow c.id t vp]

/-- The exception rows emitted for one service, written independently of
the accumulating loop: none at all in the skipped missing-validity-period
case. -/
def exceptionRowsOf (tr : Finset ℤ → Translation) (c : ObjCalendar) :
    List CalendarDate :=
  let t := tr c.dates
  let exceptionRows := t.exceptions.map
    (fun e => { service_id := c.id, date := e.date,
                exception_type := e.exception_type : CalendarDate })
  if t.operating_days.isEmpty then exceptionRows
  else
    match t.validity_period with
    | none => []
    | some _ => exceptionRows

/-- The seven weekdays, Monday first. -/
def allWeekdays : List Weekday :=
  [Weekday.Mon, Weekday.Tue, Weekday.Wed, Weekday.Thu, Weekday.Fri,
   Weekday.Sat, Weekday.Sun]

/-- Modelled from the spec: the stub Compressor of the round-trip property
(§8).  `vptranslator::translate` is an external collaborator whose
internals are out of scope; the round-trip claim fixes a stub that returns
exactly the set of weekdays occurring in the date set, the bounding
[min, max] date range as validity period, and no residual exceptions. -/
def stubCompressor (s : Finset ℤ) : Translation where
  operating_days :=
    allWeekdays.filter (fun w => (s.filter (fun d => weekdayOf d = w)).Nonempty)
  validity_period :=
    if h : s.Nonempty then
      some { start_date := s.min' h, end_date := s.max' h }
    else none
  exceptions := []

/-- The worked example of §8 of the spec: service `S1`, flags
{Mon, Wed, Fri}, start 2020-01-01 (a Wednesday, day 2 from our
Monday epoch), end 2020-01-10 (day 11). -/
def sampleCal : Calendar where
  id := "S1"
  monday := true
  tuesday := false
  wednesday := true
  thursday := false
  friday := true
  saturday := false
  sunday := false
  start_date := 2
  end_date := 11

/-- A record whose range is inverted (start 4, end 3) with every weekday
flagged. -/
def invertedCal : Calendar where
  id := "X"
  monday := true
  tuesday := true
  wednesday := true
  thursday := true
  friday := true
  saturday := true
  sunday := true
  start_date := 4
  end_date := 3

/-- A translator output exercising the missing-validity-period branch:
non-empty weekly pattern, no validity period, one residual exception. -/
def skipTr : Finset ℤ → Translation := fun _ =>
  { operating_days := [Weekday.Mon]
    validity_period := none
    exceptions := [{ date := 5, exception_type := ExceptionType.Add }] }

/-- A translator output with an empty weekly pattern and one residual
exception. -/
def exTr : Finset ℤ → Translation := fun _ =>
  { operating_days := []
    validity_period := none
    exceptions := [{ date := 7, exception_type := ExceptionType.Remove }] }

theorem mem_ite_singleton {α : Type} (a x : α) (b : Prop) [Decidable b] :
    a ∈ (if b then [x] else []) ↔ b ∧ a = x := by
  split <;> simp_all

theorem mem_get_valid_days (c : Calendar) (w : Weekday) :
    w ∈ c.get_valid_days ↔ c.flagOf w = true := by
  cases w <;>
    simp [Calendar.get_valid_days, Calendar.flagOf, mem_ite_singleton]

theorem mem_get_valid_dates (c : Calendar) (d : ℤ) :
    d ∈ c.get_valid_dates ↔
      c.start_date ≤ d ∧ d ≤ c.end_date ∧ c.flagOf (weekdayOf d) = true := by
  unfold Calendar.get_valid_dates
  rw [Finset.mem_filter]
  constructor
  · rintro ⟨hmem, hflag⟩
    rw [Finset.mem_image] at hmem
    obtain ⟨i, hi, rfl⟩ := hmem
    rw [Finset.mem_range] at hi
    rw [mem_get_valid_days] at hflag
    exact ⟨by omega, by omega, hflag⟩
  · rintro ⟨h1, h2, hflag⟩
    exact ⟨Finset.mem_image.mpr
        ⟨(d - c.start_date).toNat, Finset.mem_range.mpr (by omega), by omega⟩,
      (mem_get_valid_days _ _).mpr hflag⟩

theorem get_valid_dates_eq_filter_Icc (c : Calendar) :
    c.get_valid_dates =
      (Finset.Icc c.start_date c.end_date).filter
        (fun d => c.flagOf (weekdayOf d) = true) := by
  ext d
  simp [mem_get_valid_dates, Finset.mem_Icc, and_assoc]

theorem getById_eq_none_iff (col : Catalog) (id : String) :
    getById col id = none ↔ containsId col id = false := by
  simp [getById, containsId, List.find?_eq_none, List.any_eq_true]

theorem datesOf_cons (c : ObjCalendar) (rest : Catalog) (s : String) :
    datesOf (c :: rest) s = if c.id = s then some c.dates else datesOf rest s := by
  simp only [datesOf, getById, List.find?_cons]
  by_cases h : c.id = s <;> simp [h]

theorem updateById_datesOf (col : Catalog) (id : String)
    (f : Finset ℤ → Finset ℤ) (s : String) :
    datesOf (updateById col id f) s =
      if s = id then (datesOf col id).map f else datesOf col s := by
  induction col with
  | nil => by_cases hs : s = id <;> simp [updateById, datesOf, getById, hs]
  | cons c rest ih =>
    by_cases hc : c.id = id
    · by_cases hs : s = id
      · have hcs : c.id = s := by rw [hc, hs]
        simp [updateById, hc, hs, datesOf_cons, hcs]
      · have hcs : ¬ c.id = s := fun h => hs (by rw [← h, hc])
        have his : ¬ id = s := fun h => hs h.symm
        simp [updateById, hc, hs, datesOf_cons, hcs, his]
    · by_cases hcs : c.id = s
      · have hs : ¬ s = id := fun h => hc (by rw [hcs, h])
        simp [updateById, hc, hs, datesOf_cons, hcs]
      · by_cases hs : s = id
        · subst hs
          simp [updateById, hc, datesOf_cons, hcs, ih]
        · simp [updateById, hc, datesOf_cons, hcs, hs, ih]

theorem datesOf_isSome_iff (col : Catalog) (id : String) :
    (datesOf col id).isSome = true ↔ containsId col id = true := by
  simp [datesOf, getById, containsId, List.find?_isSome, List.any_eq_true]

theorem datesOf_append_singleton (col : Catalog) (c : ObjCalendar) (s : String) :
    datesOf (col ++ [c]) s =
      ((datesOf col s).or (if c.id = s then some c.dates else none)) := by
  simp only [datesOf, getById, List.find?_append, List.find?_cons, List.find?_nil]
  by_cases h : c.id = s <;> cases hf : List.find? (fun x => decide (x.id = s)) col <;>
    simp [h, hf]

/-- The three possible outcomes of one merge iteration, as a single total
equation: the `unwrap` in the not-found `Add` branch always succeeds. -/
theorem mergeStep_eq_cases (col : Catalog) (cd : CalendarDate) :
    mergeExceptionStep col cd =
      some (match getById col cd.service_id, cd.exception_type with
        | some _, _ => updateById col cd.service_id (fun ds => applyException ds cd)
        | none, .Add => col ++ [{ id := cd.service_id, dates := {cd.date} }]
        | none, .Remove => col) := by
  unfold mergeExceptionStep
  cases hg : getById col cd.service_id with
  | some c0 => rfl
  | none =>
    cases cd.exception_type with
    | Add =>
      have hc : containsId col cd.service_id = false :=
        (getById_eq_none_iff col cd.service_id).mp hg
      simp [push, hc, Except.toOption]
    | Remove => rfl

theorem mergeStep_isSome (col : Catalog) (cd : CalendarDate) :
    (mergeExceptionStep col cd).isSome = true := by
  rw [mergeStep_eq_cases]
  rfl

theorem datesOf_of_getById_none (col : Catalog) (id : String)
    (hg : getById col id = none) : datesOf col id = none := by
  simp [datesOf, hg]

theorem datesOf_of_getById_some (col : Catalog) (id : String) (c0 : ObjCalendar)
    (hg : getById col id = some c0) : datesOf col id = some c0.dates := by
  simp [datesOf, hg]

theorem mergeStep_datesOf (col col' : Catalog) (cd : CalendarDate)
    (h : mergeExceptionStep col cd = some col') (s : String) :
    datesOf col' s =
      if s = cd.service_id then
        (match datesOf col cd.service_id, cd.exception_type with
          | some ds, .Add => some (insert cd.date ds)
          | some ds, .Remove => some (ds.erase cd.date)
          | none, .Add => some {cd.date}
          | none, .Remove => none)
      else datesOf col s := by
  rw [mergeStep_eq_cases, Option.some.injEq] at h
  subst h
  cases hg : getById col cd.service_id with
  | some c0 =>
    rw [datesOf_of_getById_some col cd.service_id c0 hg]
    rw [updateById_datesOf]
    rw [datesOf_of_getById_some col cd.service_id c0 hg]
    by_cases hs : s = cd.service_id
    · cases he : cd.exception_type <;> simp [hs, he, applyException]
    · simp [hs]
  | none =>
    have hd := datesOf_of_getById_none col cd.service_id hg
    cases cd.exception_type with
    | Add =>
      rw [hd, datesOf_append_singleton]
      by_cases hs : s = cd.service_id
      · subst hs
        simp [hd]
      · have hcs : ¬ cd.service_id = s := fun hh => hs hh.symm
        simp [hs, hcs]
    | Remove =>
      rw [hd]
      by_cases hs : s = cd.service_id
      · subst hs
        simp [hd]
      · simp [hs]

theorem containsId_updateById (col : Catalog) (id s : String)
    (f : Finset ℤ → Finset ℤ) :
    containsId (updateById col id f) s = containsId col s := by
  induction col with
  | nil => simp [updateById]
  | cons c rest ih =>
    by_cases hc : c.id = id
    · simp [updateById, containsId, hc]
    · simp only [containsId, List.any_cons] at ih ⊢
      rw [updateById, if_neg hc]
      simp only [List.any_cons, ih]

theorem containsId_append_singleton (col : Catalog) (c : ObjCalendar)
    (s : String) :
    containsId (col ++ [c]) s = (containsId col s || (c.id = s : Bool)) := by
  simp [containsId]

theorem mergeStep_containsId (col col' : Catalog) (cd : CalendarDate)
    (h : mergeExceptionStep col cd = some col') (id : String)
    (hmem : containsId col id = true) : containsId col' id = true := by
  rw [mergeStep_eq_cases, Option.some.injEq] at h
  subst h
  cases hg : getById col cd.service_id with
  | some c0 => rw [containsId_updateById]; exact hmem
  | none =>
    cases cd.exception_type with
    | Add => rw [containsId_append_singleton, hmem, Bool.true_or]
    | Remove => exact hmem

theorem parse_calendar_dates_containsId
    (rows : List (Except String CalendarDate)) :
    ∀ (col col' : Catalog), parse_calendar_dates rows col = some (.ok col') →
      ∀ id, containsId col id = true → containsId col' id = true := by
  induction rows with
  | nil =>
    intro col col' h id hmem
    simp only [parse_calendar_dates, Option.some.injEq, Except.ok.injEq] at h
    exact h ▸ hmem
  | cons r rs ih =>
    intro col col' h id hmem
    cases r with
    | error e => simp [parse_calendar_dates] at h
    | ok cd =>
      simp only [parse_calendar_dates] at h
      cases hstep : mergeExceptionStep col cd with
      | none => rw [hstep] at h; exact absurd h (by simp)
      | some colm =>
        rw [hstep] at h
        exact ih colm col' h id (mergeStep_containsId col colm cd hstep id hmem)

theorem parse_calendar_rows_nonempty_dates
    (rows : List (Except String Calendar)) :
    ∀ (col col' : Catalog), parse_calendar_rows rows col = .ok col' →
      (∀ oc ∈ col, oc.dates ≠ ∅) → ∀ oc ∈ col', oc.dates ≠ ∅ := by
  induction rows with
  | nil =>
    intro col col' h hinv
    simp only [parse_calendar_rows, Except.ok.injEq] at h
    exact h ▸ hinv
  | cons r rs ih =>
    intro col col' h hinv
    cases r with
    | error e => simp [parse_calendar_rows] at h
    | ok c =>
      simp only [parse_calendar_rows] at h
      by_cases hd : c.get_valid_dates = ∅
      · rw [if_pos hd] at h
        exact ih col col' h hinv
      · rw [if_neg hd] at h
        cases hp : push col { id := c.id, dates := c.get_valid_dates } with
        | error e => rw [hp] at h; exact absurd h (by simp)
        | ok colp =>
          rw [hp] at h
          refine ih colp col' h ?_
          intro oc hoc
          have : colp = col ++ [{ id := c.id, dates := c.get_valid_dates }] := by
            unfold push at hp
            by_cases hc : containsId col c.id = true
            · rw [if_pos hc] at hp; exact absurd hp (by simp)
            · rw [if_neg hc] at hp
              cases hp
              rfl
          subst this
          rcases List.mem_append.mp hoc with hmem | hmem
          · exact hinv oc hmem
          · simp only [List.mem_singleton] at hmem
            subst hmem
            exact hd

theorem process_calendar_eq (tr : Finset ℤ → Translation)
    (acc : List Calendar × List CalendarDate) (c : ObjCalendar) :
    process_calendar tr acc c =
      (acc.1 ++ calendarRowsOf tr c, acc.2 ++ exceptionRowsOf tr c) := by
  unfold process_calendar calendarRowsOf exceptionRowsOf
  by_cases he : (tr c.dates).operating_days.isEmpty
  · simp [he]
  · cases hv : (tr c.dates).validity_period <;> simp [he, hv]

theorem foldl_process_calendar (tr : Finset ℤ → Translation)
    (cals : Catalog) :
    ∀ acc, cals.foldl (process_calendar tr) acc =
      (acc.1 ++ cals.flatMap (calendarRowsOf tr),
       acc.2 ++ cals.flatMap (exceptionRowsOf tr)) := by
  induction cals with
  | nil => intro acc; simp
  | cons c rest ih =>
    intro acc
    rw [List.foldl_cons, process_calendar_eq, ih]
    simp

theorem weekdayOf_eq_iff (d : ℤ) (w : Weekday) :
    weekdayOf d = w ↔ d % 7 = w.idx := by
  have h0 : 0 ≤ d % 7 := Int.emod_nonneg d (by norm_num)
  have hn : ((d % 7).toNat : ℤ) = d % 7 := Int.toNat_of_nonneg h0
  have h7 : d % 7 < 7 := Int.emod_lt_of_pos d (by norm_num)
  have hlt : (d % 7).toNat < 7 := by omega
  unfold weekdayOf
  rw [← hn]
  generalize (d % 7).toNat = n at hlt ⊢
  interval_cases n <;> cases w <;> simp [natToWeekday, Weekday.idx]

theorem exists_weekday_in_week (s : ℤ) (w : Weekday) :
    ∃ d, s ≤ d ∧ d ≤ s + 6 ∧ weekdayOf d = w := by
  have hw : 0 ≤ w.idx ∧ w.idx < 7 := by cases w <;> simp [Weekday.idx]
  refine ⟨s + (w.idx - s) % 7, by omega, by omega, ?_⟩
  rw [weekdayOf_eq_iff]
  omega

theorem occurs_iff_flag (c : Calendar) (hlen : c.start_date + 6 ≤ c.end_date)
    (w : Weekday) :
    (c.get_valid_dates.filter (fun d => weekdayOf d = w)).Nonempty ↔
      c.flagOf w = true := by
  constructor
  · rintro ⟨d, hd⟩
    rw [Finset.mem_filter] at hd
    obtain ⟨hmem, hw⟩ := hd
    have := (mem_get_valid_dates c d).mp hmem
    rw [← hw]
    exact this.2.2
  · intro hflag
    obtain ⟨d, h1, h2, h3⟩ := exists_weekday_in_week c.start_date w
    refine ⟨d, Finset.mem_filter.mpr ⟨?_, by rw [h3]⟩⟩
    exact (mem_get_valid_dates c d).mpr ⟨h1, by omega, by rw [h3]; exact hflag⟩

theorem exceptionRowsOf_stub (x : ObjCalendar) :
    exceptionRowsOf stubCompressor x = [] := by
  unfold exceptionRowsOf stubCompressor
  simp only [List.map_nil]
  split
  · rfl
  · split <;> rfl

theorem stub_contains_iff (s : Finset ℤ) (w : Weekday) :
    (stubCompressor s).operating_days.contains w = true ↔
      (s.filter (fun d => weekdayOf d = w)).Nonempty := by
  have hmem : w ∈ allWeekdays := by cases w <;> simp [allWeekdays]
  simp [stubCompressor, List.elem_iff, List.mem_filter, hmem]

theorem calendar_ext {a b : Calendar} (h1 : a.id = b.id)
    (h2 : a.monday = b.monday) (h3 : a.tuesday = b.tuesday)
    (h4 : a.wednesday = b.wednesday) (h5 : a.thursday = b.thursday)
    (h6 : a.friday = b.friday) (h7 : a.saturday = b.saturday)
    (h8 : a.sunday = b.sunday) (h9 : a.start_date = b.start_date)
    (h10 : a.end_date = b.end_date) : a = b := by
  cases a
  cases b
  simp_all

theorem calendarRowsOf_stub_materialized (c : Calendar)
    (hlen : c.start_date + 6 ≤ c.end_date)
    (hs : c.flagOf (weekdayOf c.start_date) = true)
    (he : c.flagOf (weekdayOf c.end_date) = true) :
    calendarRowsOf stubCompressor { id := c.id, dates := c.get_valid_dates } = [c] := by
  have hmem_start : c.start_date ∈ c.get_valid_dates :=
    (mem_get_valid_dates c _).mpr ⟨le_refl _, by omega, hs⟩
  have hmem_end : c.end_date ∈ c.get_valid_dates :=
    (mem_get_valid_dates c _).mpr ⟨by omega, le_refl _, he⟩
  have hne : c.get_valid_dates.Nonempty := ⟨_, hmem_start⟩
  have hmin : c.get_valid_dates.min' hne = c.start_date :=
    le_antisymm (Finset.min'_le _ _ hmem_start)
      (Finset.le_min' _ _ _ (fun d hd => ((mem_get_valid_dates c d).mp hd).1))
  have hmax : c.get_valid_dates.max' hne = c.end_date :=
    le_antisymm
      (Finset.max'_le _ _ _ (fun d hd => ((mem_get_valid_dates c d).mp hd).2.1))
      (Finset.le_max' _ _ hmem_end)
  have hmemw : weekdayOf c.start_date ∈
      (stubCompressor c.get_valid_dates).operating_days :=
    List.elem_iff.mp ((stub_contains_iff _ _).mpr
      ⟨c.start_date, Finset.mem_filter.mpr ⟨hmem_start, rfl⟩⟩)
  have hod : ((stubCompressor c.get_valid_dates).operating_days).isEmpty = false := by
    cases hL : ((stubCompressor c.get_valid_dates).operating_days).isEmpty
    · rfl
    · rw [List.isEmpty_iff] at hL
      rw [hL] at hmemw
      simp at hmemw
  have hvp : (stubCompressor c.get_valid_dates).validity_period =
      some { start_date := c.start_date, end_date := c.end_date } := by
    show (if h : c.get_valid_dates.Nonempty then
        some { start_date := c.get_valid_dates.min' h,
               end_date := c.get_valid_dates.max' h : ValidityPeriod }
      else none) = _
    rw [dif_pos hne, hmin, hmax]
  show (if (stubCompressor c.get_valid_dates).operating_days.isEmpty = true then
      ([] : List Calendar)
    else
      match (stubCompressor c.get_valid_dates).validity_period with
      | none => []
      | some vp => [translationRow c.id (stubCompressor c.get_valid_dates) vp]) = [c]
  rw [hod]
  simp only [Bool.false_eq_true, if_false, hvp]
  congr 1
  refine calendar_ext rfl ?_ ?_ ?_ ?_ ?_ ?_ ?_ rfl rfl <;>
    simp only [translationRow] <;>
    rw [Bool.eq_iff_iff, stub_contains_iff, occurs_iff_flag c hlen] <;>
    simp [Calendar.flagOf]

/-- C1: for every weekly-pattern record with `start_date ≤ end_date`, the
materialized set produced by `Calendar::get_valid_dates` equals exactly the
set of dates in the inclusive range `[start_date, end_date]` whose weekday
is among the flagged weekdays, and its size equals the count of such dates
(both right-hand sides computed by direct filtering of the interval against
the record's seven flags, not by the algorithm under test). -/
theorem C1_materializer_exact (c : Calendar)
    (_h : c.start_date ≤ c.end_date) :
    c.get_valid_dates =
      (Finset.Icc c.start_date c.end_date).filter
        (fun d => c.flagOf (weekdayOf d) = true) ∧
    c.get_valid_dates.card =
      ((Finset.Icc c.start_date c.end_date).filter
        (fun d => c.flagOf (weekdayOf d) = true)).card := by
  refine ⟨get_valid_dates_eq_filter_Icc c, ?_⟩
  rw [get_valid_dates_eq_filter_Icc c]

/-- Witness for C1 at the worked example of the spec. -/
theorem C1_materializer_exact_witness :
    sampleCal.start_date ≤ sampleCal.end_date ∧
    (sampleCal.get_valid_dates =
      (Finset.Icc sampleCal.start_date sampleCal.end_date).filter
        (fun d => sampleCal.flagOf (weekdayOf d) = true) ∧
    sampleCal.get_valid_dates.card =
      ((Finset.Icc sampleCal.start_date sampleCal.end_date).filter
        (fun d => sampleCal.flagOf (weekdayOf d) = true)).card) :=
  ⟨by decide, C1_materializer_exact sampleCal (by decide)⟩

/-- C2: one date-exception record processed against the catalog never
raises an error, and the resulting catalog satisfies the four-branch
contract: found/Add inserts the date, found/Remove removes it, a
not-found/Add creates a calendar holding exactly that one date under that
id, a not-found/Remove leaves the catalog completely unchanged; every
other service's date set is untouched. -/
theorem C2_exception_merge_contract (col : Catalog) (cd : CalendarDate) :
    ∃ col', mergeExceptionStep col cd = some col' ∧
      (∀ s, datesOf col' s =
        if s = cd.service_id then
          (match datesOf col cd.service_id, cd.exception_type with
            | some ds, ExceptionType.Add => some (insert cd.date ds)
            | some ds, ExceptionType.Remove => some (ds.erase cd.date)
            | none, ExceptionType.Add => some {cd.date}
            | none, ExceptionType.Remove => none)
        else datesOf col s) ∧
      (getById col cd.service_id = none →
        cd.exception_type = ExceptionType.Remove → col' = col) := by
  obtain ⟨col', h⟩ := Option.isSome_iff_exists.mp (mergeStep_isSome col cd)
  refine ⟨col', h, mergeStep_datesOf col col' cd h, ?_⟩
  intro hg he
  rw [mergeStep_eq_cases, hg, he] at h
  exact (Option.some_injective _ h).symm

/-- Witness for C2: the unknown-service Add example of the spec (`S2`,
one date) against an empty catalog. -/
theorem C2_exception_merge_contract_witness :
    ∃ col', mergeExceptionStep []
        { service_id := "S2", date := 33, exception_type := ExceptionType.Add } =
        some col' ∧
      (∀ s, datesOf col' s =
        if s = "S2" then some ({33} : Finset ℤ) else datesOf [] s) ∧
      (getById [] "S2" = none →
        ExceptionType.Add = ExceptionType.Remove → col' = []) := by
  obtain ⟨col', h1, h2, h3⟩ := C2_exception_merge_contract []
    { service_id := "S2", date := 33, exception_type := ExceptionType.Add }
  exact ⟨col', h1, h2, h3⟩

/-- C9: in the not-found/Add branch of the exception merge, the insertion
can never fail: a failed lookup means the id is genuinely absent from the
uniquely-keyed catalog, so `push` returns `Ok` (it appends) and the
`unwrap`ped step produces a value rather than panicking. -/
theorem C9_insertion_never_fails (col : Catalog) (cd : CalendarDate)
    (hmiss : getById col cd.service_id = none) :
    push col { id := cd.service_id, dates := {cd.date} } =
      .ok (col ++ [{ id := cd.service_id, dates := {cd.date} }]) ∧
    (mergeExceptionStep col cd).isSome = true := by
  have hc : containsId col cd.service_id = false :=
    (getById_eq_none_iff col cd.service_id).mp hmiss
  exact ⟨by simp [push, hc], mergeStep_isSome col cd⟩

/-- Witness for C9 at a concrete miss. -/
theorem C9_insertion_never_fails_witness :
    getById [{ id := "S1", dates := ({2} : Finset ℤ) }] "S2" = none ∧
    (push [{ id := "S1", dates := ({2} : Finset ℤ) }]
        { id := "S2", dates := {33} } =
      .ok [{ id := "S1", dates := ({2} : Finset ℤ) },
           { id := "S2", dates := ({33} : Finset ℤ) }] ∧
    (mergeExceptionStep [{ id := "S1", dates := ({2} : Finset ℤ) }]
        { service_id := "S2", date := 33,
          exception_type := ExceptionType.Add }).isSome = true) :=
  ⟨by rfl, C9_insertion_never_fails [{ id := "S1", dates := ({2} : Finset ℤ) }]
    { service_id := "S2", date := 33, exception_type := ExceptionType.Add }
    (by rfl)⟩

/-- C5: processing any sequence of date-exception records never removes an
entry: every service id present in the catalog before `parse_calendar_dates`
runs is still present afterwards. -/
theorem C5_no_deletion (rows : List (Except String CalendarDate))
    (col col' : Catalog)
    (h : parse_calendar_dates rows col = some (.ok col'))
    (id : String) (hmem : containsId col id = true) :
    containsId col' id = true :=
  parse_calendar_dates_containsId rows col col' h id hmem

/-- Witness for C5: a single unknown-service Add leaves `"a"` present. -/
theorem C5_no_deletion_witness :
    parse_calendar_dates
        [Except.ok { service_id := "b", date := 3,
                     exception_type := ExceptionType.Add }]
        [{ id := "a", dates := ({5} : Finset ℤ) }] =
      some (.ok [{ id := "a", dates := ({5} : Finset ℤ) },
                 { id := "b", dates := ({3} : Finset ℤ) }]) ∧
    containsId [{ id := "a", dates := ({5} : Finset ℤ) }] "a" = true ∧
    containsId [{ id := "a", dates := ({5} : Finset ℤ) },
                { id := "b", dates := ({3} : Finset ℤ) }] "a" = true :=
  ⟨by rfl, by rfl,
   C5_no_deletion
     [Except.ok { service_id := "b", date := 3,
                  exception_type := ExceptionType.Add }]
     [{ id := "a", dates := ({5} : Finset ℤ) }]
     [{ id := "a", dates := ({5} : Finset ℤ) },
      { id := "b", dates := ({3} : Finset ℤ) }]
     (by rfl) "a" (by rfl)⟩

/-- C4: a weekly record whose expansion is empty — in particular whenever
`start_date > end_date` — materializes to the empty set, and
`parse_calendar` (which starts from the empty collection) never inserts a
calendar with an empty date set. -/
theorem C4_empty_expansion_never_inserted :
    (∀ c : Calendar, c.end_date < c.start_date → c.get_valid_dates = ∅) ∧
    (∀ (rows : List (Except String Calendar)) (col' : Catalog),
      parse_calendar_rows rows [] = .ok col' → ∀ oc ∈ col', oc.dates ≠ ∅) := by
  constructor
  · intro c h
    have h0 : (c.end_date - c.start_date + 1).toNat = 0 := by omega
    simp [Calendar.get_valid_dates, h0]
  · intro rows col' h
    exact parse_calendar_rows_nonempty_dates rows [] col' h (by simp)

/-- Witness for C4: the inverted record expands to nothing, and parsing the
worked example yields a catalog of non-empty date sets. -/
theorem C4_empty_expansion_never_inserted_witness :
    invertedCal.get_valid_dates = ∅ ∧
    (∀ oc ∈ ([{ id := "S1", dates := sampleCal.get_valid_dates }] : Catalog),
      oc.dates ≠ ∅) :=
  ⟨C4_empty_expansion_never_inserted.1 invertedCal (by decide),
   C4_empty_expansion_never_inserted.2 [Except.ok sampleCal] _ (by rfl)⟩

theorem ite_isEmpty_cases {α : Type} (l : List α) :
    ((if l.isEmpty then (none : Option (List α)) else some l) = none ↔ l = []) ∧
    (∀ rows, (if l.isEmpty then (none : Option (List α)) else some l) = some rows →
      rows = l ∧ rows ≠ []) := by
  by_cases hl : l = []
  · subst hl
    simp
  · have hE : l.isEmpty = false := by simpa [List.isEmpty_iff] using hl
    constructor
    · simp [hE, hl]
    · intro rows hr
      rw [if_neg (by simp [hE])] at hr
      obtain rfl := (Option.some_injective _ hr).symm
      exact ⟨rfl, hl⟩

theorem write_calendar_dates_eq (tr : Finset ℤ → Translation) (cals : Catalog) :
    write_calendar_dates tr cals =
      ((if (cals.flatMap (exceptionRowsOf tr)).isEmpty then none
        else some (cals.flatMap (exceptionRowsOf tr))),
       (if (cals.flatMap (calendarRowsOf tr)).isEmpty then none
        else some (cals.flatMap (calendarRowsOf tr)))) := by
  unfold write_calendar_dates write_calendar
  rw [foldl_process_calendar]
  simp

/-- C6: when neither the weekly-pattern source nor the exception source
exists, `manage_calendars` fails with the fatal error identifying that
neither calendar source was found, and the collections — hence the
catalog — are left unchanged: no catalog is produced. -/
theorem C6_neither_source_fatal (collections : Collections) :
    manage_calendars none none collections =
      some (.error "calendar_dates.txt or calendar.txt not found", collections) :=
  rfl

/-- C10: `manage_calendars` is atomic with respect to the destination
collections: whenever it returns an error — missing sources, open failure,
or a row parse failure on either file — the collections it was handed are
returned unchanged; the finished catalog is installed only on full
success. -/
theorem C10_error_preserves_collections
    (calendarFile : Option (Except String (List (Except String Calendar))))
    (calendarDatesFile : Option (Except String (List (Except String CalendarDate))))
    (collections : Collections) (out : Except String Unit × Collections)
    (h : manage_calendars calendarFile calendarDatesFile collections = some out)
    (e : String) (he : out.1 = .error e) : out.2 = collections := by
  unfold manage_calendars at h
  split at h
  · obtain rfl := Option.some_injective _ h
    rfl
  · split at h
    · obtain rfl := Option.some_injective _ h
      rfl
    · split at h
      · obtain rfl := Option.some_injective _ h
        simp at he
      · obtain rfl := Option.some_injective _ h
        rfl
      · split at h
        · exact Option.noConfusion h
        · obtain rfl := Option.some_injective _ h
          rfl
        · obtain rfl := Option.some_injective _ h
          simp at he

/-- Witness for C10: an open failure on `calendar.txt` leaves the
collections unchanged. -/
theorem C10_error_preserves_collections_witness :
    manage_calendars (some (.error "boom")) none { calendars := ([] : Catalog) } =
      some (.error "boom", { calendars := ([] : Catalog) }) ∧
    ((Except.error "boom", { calendars := ([] : Catalog) }) :
        Except String Unit × Collections).1 = .error "boom" ∧
    ((Except.error "boom", { calendars := ([] : Catalog) }) :
        Except String Unit × Collections).2 = { calendars := ([] : Catalog) } :=
  ⟨rfl, rfl,
   C10_error_preserves_collections (some (.error "boom")) none
     { calendars := [] } (.error "boom", { calendars := [] }) rfl "boom" rfl⟩

/-- C7: write-time policy — `calendar_dates.txt` is created iff at least
one exception row was produced across all services, `calendar.txt` is
created iff at least one weekly-pattern row was produced, and when a file
is created its content is exactly the rows produced per service in catalog
order. -/
theorem C7_write_only_if_rows (tr : Finset ℤ → Translation) (cals : Catalog) :
    ((write_calendar_dates tr cals).1 = none ↔
      cals.flatMap (exceptionRowsOf tr) = []) ∧
    ((write_calendar_dates tr cals).2 = none ↔
      cals.flatMap (calendarRowsOf tr) = []) ∧
    (∀ rows, (write_calendar_dates tr cals).1 = some rows →
      rows = cals.flatMap (exceptionRowsOf tr) ∧ rows ≠ []) ∧
    (∀ rows, (write_calendar_dates tr cals).2 = some rows →
      rows = cals.flatMap (calendarRowsOf tr) ∧ rows ≠ []) := by
  rw [write_calendar_dates_eq]
  exact ⟨(ite_isEmpty_cases _).1, (ite_isEmpty_cases _).1,
    (ite_isEmpty_cases _).2, (ite_isEmpty_cases _).2⟩

/-- Witness for C7: a service with an empty pattern and one residual
exception produces exactly one exception row, and the exception file is
created with exactly that row. -/
theorem C7_write_only_if_rows_witness :
    (write_calendar_dates exTr [{ id := "s", dates := (∅ : Finset ℤ) }]).1 =
      some [{ service_id := "s", date := 7,
              exception_type := ExceptionType.Remove }] ∧
    ([{ service_id := "s", date := 7,
        exception_type := ExceptionType.Remove }] : List CalendarDate) =
      ([{ id := "s", dates := (∅ : Finset ℤ) }] : Catalog).flatMap
        (exceptionRowsOf exTr) ∧
    ([{ service_id := "s", date := 7,
        exception_type := ExceptionType.Remove }] : List CalendarDate) ≠ [] :=
  ⟨by rfl,
   (C7_write_only_if_rows exTr [{ id := "s", dates := (∅ : Finset ℤ) }]).2.2.1
     [{ service_id := "s", date := 7, exception_type := ExceptionType.Remove }]
     (by rfl)⟩

/-- C3 as stated is false on the code: with a Compressor output that has a
non-empty weekly pattern, no validity period and one residual exception,
the serializer emits no exception row for that service — the
`skip_error_and_log!` macro expands to `continue`, abandoning the whole
iteration — so here not even the exception file is created. -/
theorem C3_counterexample :
    (skipTr (∅ : Finset ℤ)).operating_days ≠ [] ∧
    (skipTr (∅ : Finset ℤ)).validity_period = none ∧
    (skipTr (∅ : Finset ℤ)).exceptions =
      [{ date := 5, exception_type := ExceptionType.Add }] ∧
    write_calendar_dates skipTr [{ id := "s", dates := (∅ : Finset ℤ) }] =
      (none, none) :=
  ⟨by simp [skipTr], rfl, rfl, by rfl⟩

/-- C3 (amended): when the Compressor returns a non-empty pattern without a
validity period for a service, the serializer logs a warning and skips that
service entirely — emitting neither its weekly-pattern row nor its residual
exception rows — and the output for all other services is exactly as if the
service were absent: the write of the remaining services is not aborted. -/
theorem C3_missing_period_skips_service (tr : Finset ℤ → Translation)
    (pre post : Catalog) (c : ObjCalendar)
    (hod : (tr c.dates).operating_days ≠ [])
    (hvp : (tr c.dates).validity_period = none) :
    write_calendar_dates tr (pre ++ c :: post) =
      write_calendar_dates tr (pre ++ post) := by
  have hrow : calendarRowsOf tr c = [] := by
    unfold calendarRowsOf
    simp [hvp, List.isEmpty_iff, hod]
  have hex : exceptionRowsOf tr c = [] := by
    unfold exceptionRowsOf
    simp [hvp, List.isEmpty_iff, hod]
  rw [write_calendar_dates_eq, write_calendar_dates_eq]
  simp [List.flatMap_append, hrow, hex]

/-- Witness for C3 (amended): the skipped service contributes nothing next
to another service. -/
theorem C3_missing_period_skips_service_witness :
    (skipTr ({ id := "s", dates := (∅ : Finset ℤ) } : ObjCalendar).dates).operating_days ≠ [] ∧
    (skipTr ({ id := "s", dates := (∅ : Finset ℤ) } : ObjCalendar).dates).validity_period = none ∧
    write_calendar_dates skipTr
        ([] ++ ({ id := "s", dates := (∅ : Finset ℤ) } : ObjCalendar) ::
          [{ id := "t", dates := (∅ : Finset ℤ) }]) =
      write_calendar_dates skipTr ([] ++ [{ id := "t", dates := (∅ : Finset ℤ) }]) :=
  ⟨by simp [skipTr], rfl,
   C3_missing_period_skips_service skipTr []
     [{ id := "t", dates := (∅ : Finset ℤ) }]
     { id := "s", dates := (∅ : Finset ℤ) } (by simp [skipTr]) rfl⟩

/-- C8: round trip — serializing, via the stub Compressor fixed by the
spec, the catalog entry obtained by materializing a weekly-pattern record
whose expansion is a perfect weekly expansion (the range covers a full
week so that every flagged weekday occurs, and both endpoints are flagged
dates so the bounding range is the record's own range) reproduces exactly
the original row: the same seven weekday flags and the same start and end
dates, with no exception rows at all. -/
theorem C8_round_trip (c : Calendar)
    (hlen : c.start_date + 6 ≤ c.end_date)
    (hs : c.flagOf (weekdayOf c.start_date) = true)
    (he : c.flagOf (weekdayOf c.end_date) = true) :
    write_calendar_dates stubCompressor
        [{ id := c.id, dates := c.get_valid_dates }] = (none, some [c]) := by
  rw [write_calendar_dates_eq]
  simp only [List.flatMap_cons, List.flatMap_nil, List.append_nil]
  rw [exceptionRowsOf_stub, calendarRowsOf_stub_materialized c hlen hs he]
  rfl

/-- Witness for C8 at the worked example of the spec. -/
theorem C8_round_trip_witness :
    sampleCal.start_date + 6 ≤ sampleCal.end_date ∧
    sampleCal.flagOf (weekdayOf sampleCal.start_date) = true ∧
    sampleCal.flagOf (weekdayOf sampleCal.end_date) = true ∧
    write_calendar_dates stubCompressor
        [{ id := sampleCal.id, dates := sampleCal.get_valid_dates }] =
      (none, some [sampleCal]) :=
  ⟨by decide, by decide, by decide,
   C8_round_trip sampleCal (by decide) (by decide) (by decide)⟩

end TransitModel
